import Mathlib

/-!
Verification of the `roman-numerals` harfbuzz-wasm shaping plugin
(`src/roman-numerals/src/lib.rs`).

The Rust source is shallowly embedded below.  Rust `String`s are modelled
as `List Char`; the host types `Font` and `GlyphBuffer` from the
`harfbuzz_wasm` crate are external collaborators, modelled respectively as
a structure of lookup functions and as a plain list of glyphs.
Machine integers (`u32`, `i32`, `u64`) are modelled as `Nat`/`Int`; where
64-bit overflow matters (the digit accumulator) the 2^64 bound is tracked
explicitly.
-/

/-- The glyph record of the harfbuzz-wasm buffer (`Glyph` in the crate):
`codepoint`, `cluster`, `flags` are `u32`; the metrics are `i32`. -/
structure Glyph where
  codepoint : Nat
  cluster : Nat
  flags : Nat
  x_advance : Int
  y_advance : Int
  x_offset : Int
  y_offset : Int
deriving DecidableEq, Repr

/-- The font collaborator: `get_glyph(codepoint, variant)` resolves a
codepoint to a glyph index, `get_glyph_h_advance` gives its horizontal
advance. -/
structure Font where
  get_glyph : Nat → Nat → Nat
  get_glyph_h_advance : Nat → Int

/-- Embeds `fn unicode_codepoint_to_number(unicode: u32) -> Option<u8>`. -/
def unicode_codepoint_to_number (unicode : Nat) : Option Nat :=
  if 0x30 ≤ unicode ∧ unicode ≤ 0x39 then some (unicode - 0x30) else none

/-- The modulus 2^64 of the Rust `u64` accumulator. -/
def U64 : Nat := 2 ^ 64

/-- Embeds `fn digits_to_number(digits: &[u8]) -> u64`: fold over
`digits.iter().rev().enumerate()` accumulating `acc + num * 10^idx` in
`u64` arithmetic.  Each power, product and sum is reduced modulo 2^64,
the release-mode wrapping semantics (debug builds panic at the first
overflowing step instead; the overflow-checked variant below tracks
exactly which steps overflow). -/
def digits_to_number (digits : List Nat) : Nat :=
  (digits.reverse.enum).foldl
    (fun acc p => (acc + p.2 * (10 ^ p.1 % U64) % U64) % U64) 0

/-- Embeds `fn string_to_glyphs(string: &str) -> Vec<Glyph>`: one glyph per
character of the Roman string, via `chars().enumerate().map(..)`. -/
def string_to_glyphs (string : List Char) : List Glyph :=
  string.enum.map (fun p =>
    { codepoint := if p.2 = '_' then 0x305 else p.2.toNat
      flags := 0
      x_advance := 0
      y_advance := 0
      cluster := if p.2 = '_' then p.1 + 1 else p.1
      x_offset := 0
      y_offset := 0 })

/-- The inner `while number >= value` loop of `number_to_roman_numeral`:
append `symbol` and subtract `value` while possible.  Every table entry
has `0 < value`, which the guard records to make termination manifest. -/
def romanLoop (value : Nat) (symbol : List Char) (n : Nat) (acc : List Char) :
    Nat × List Char :=
  if h : 0 < value ∧ value ≤ n then
    romanLoop value symbol (n - value) (acc ++ symbol)
  else
    (n, acc)
termination_by n
decreasing_by omega

/-- The static Roman encoding table `letters` (value, symbol) of
`number_to_roman_numeral`, strictly descending, `'_'` marking an overline
on the next letter. -/
def letters : List (Nat × List Char) :=
  [ (1000000, ['_', 'M']),
    (900000, ['_', 'C', '_', 'M']),
    (500000, ['_', 'D']),
    (400000, ['_', 'C', '_', 'D']),
    (100000, ['_', 'C']),
    (90000, ['_', 'X', '_', 'C']),
    (50000, ['_', 'L']),
    (40000, ['_', 'X', '_', 'L']),
    (10000, ['_', 'X']),
    (9000, ['_', 'I', '_', 'X']),
    (5000, ['_', 'V']),
    (4000, ['_', 'I', '_', 'V']),
    (1000, ['M']),
    (900, ['C', 'M']),
    (500, ['D']),
    (400, ['C', 'D']),
    (100, ['C']),
    (90, ['X', 'C']),
    (50, ['L']),
    (40, ['X', 'L']),
    (10, ['X']),
    (9, ['I', 'X']),
    (5, ['V']),
    (4, ['I', 'V']),
    (1, ['I']) ]

/-- The outer `for (value, symbol) in letters` loop, carrying the pair
(remaining number, result string). -/
def roman_fold (number : Nat) : Nat × List Char :=
  letters.foldl (fun p e => romanLoop e.1 e.2 p.1 p.2) (number, [])

/-- Embeds `fn number_to_roman_numeral(mut number: u64) -> String`. -/
def number_to_roman_numeral (number : Nat) : List Char :=
  (roman_fold number).2

/-- Embeds `fn process_digits(digits: &mut Vec<u8>, out: &mut Vec<Glyph>)`:
flush a non-empty digit run as Roman glyphs and clear it. -/
def process_digits (digits : List Nat) (out : List Glyph) :
    List Nat × List Glyph :=
  if digits ≠ [] then
    ([], out ++ string_to_glyphs (number_to_roman_numeral (digits_to_number digits)))
  else
    (digits, out)

/-- One iteration of the scanner loop `for item in buffer.glyphs.iter()`
in `shape`, over the state (digit run, output list). -/
def scanStep (p : List Nat × List Glyph) (item : Glyph) :
    List Nat × List Glyph :=
  match unicode_codepoint_to_number item.codepoint with
  | some number => (p.1 ++ [number], p.2)
  | none =>
      let q := process_digits p.1 p.2
      (q.1, q.2 ++ [item])

/-- The scanner loop of `shape` run over the whole input buffer. -/
def scan (glyphs : List Glyph) : List Nat × List Glyph :=
  glyphs.foldl scanStep ([], [])

/-- The output sequence of `shape` after the trailing
`process_digits(&mut digits, &mut out)`, before the fix-up pass. -/
def assembled (glyphs : List Glyph) : List Glyph :=
  (process_digits (scan glyphs).1 (scan glyphs).2).2

/-- One iteration of the `// fix characters` loop of `shape`: record
whether the codepoint is the overline marker, resolve the codepoint
through the font, then set advance and vertical offset. -/
def fix_glyph (font : Font) (item : Glyph) : Glyph :=
  let is_overline := item.codepoint = 0x305
  let codepoint := font.get_glyph item.codepoint 0
  { item with
    codepoint := codepoint
    x_advance := if is_overline then 0 else font.get_glyph_h_advance codepoint
    y_offset := if is_overline then 130 else 0 }

/-- Embeds `pub fn shape(..) -> i32`: scan, flush the trailing run, fix up
every glyph, write the buffer back and return 1.  The result is the
written-back buffer paired with the return code; the ignored shape-plan
and feature parameters of the entry point are dropped. -/
def shape (font : Font) (buffer : List Glyph) : List Glyph × Int :=
  ((assembled buffer).map (fix_glyph font), 1)

/-! Specification-side models and proof-level auxiliaries. -/

/-- Closed form of one `romanLoop` run, used to compute with the
well-founded `romanLoop`: remainder modulo the entry's value, and the
symbol appended quotient-many times. -/
def romanStepClosed (p : Nat × List Char) (e : Nat × List Char) :
    Nat × List Char :=
  (if 0 < e.1 then p.1 % e.1 else p.1,
   p.2 ++ (List.replicate (if 0 < e.1 then p.1 / e.1 else 0) e.2).flatten)

/-- The base-10 integer a digit sequence denotes, most significant digit
first (the specification's reference value for a digit run). -/
def denote (digits : List Nat) : Nat :=
  Nat.ofDigits 10 digits.reverse

/-- The glyphs produced by flushing a digit run. -/
def flush_glyphs (digits : List Nat) : List Glyph :=
  string_to_glyphs (number_to_roman_numeral (digits_to_number digits))

/-- Reference scanner from the specification's words: walk the input once,
left to right; digit glyphs are accumulated into the run and never copied;
a pending run is flushed the moment a non-digit glyph appears, before that
glyph is appended unchanged; a non-empty run left at the end of input is
flushed once more. -/
def scannerSpec (digits : List Nat) : List Glyph → List Glyph
  | [] => if digits = [] then [] else flush_glyphs digits
  | g :: rest =>
      match unicode_codepoint_to_number g.codepoint with
      | some n => scannerSpec (digits ++ [n]) rest
      | none =>
          (if digits = [] then [] else flush_glyphs digits) ++
            g :: scannerSpec [] rest

/-- Predicate `okChars l`: every occurrence of the overline escape `'_'`
in `l` is immediately followed by a character that is not `'_'` (so in
particular `'_'` is never last). -/
def okChars : List Char → Bool
  | [] => true
  | [c] => c != '_'
  | c :: d :: rest => (c != '_' || d != '_') && okChars (d :: rest)

/-- Well-formedness of an encoded Roman string: the overline escapes are
placed correctly and no character has scalar value 0x305 itself (the
marker codepoint only ever arises from translating `'_'`). -/
def romanOk (l : List Char) : Bool :=
  okChars l && l.all (fun c => c.toNat != 0x305)

/-- One step of `digits_to_number` instrumented with `u64` overflow
checks: the flag stays `true` only if the power `10^idx`, the product
`num * 10^idx` and the running sum all fit in a `u64`. -/
def stepChecked (p : Bool × Nat) (q : Nat × Nat) : Bool × Nat :=
  (p.1 && decide (10 ^ q.1 < U64) && decide (q.2 * 10 ^ q.1 < U64)
      && decide (p.2 + q.2 * 10 ^ q.1 < U64),
   p.2 + q.2 * 10 ^ q.1)

/-- Variant of `digits_to_number` with the overflow-checked step: returns the
no-overflow flag together with the exact accumulator value. -/
def digits_to_number_checked (digits : List Nat) : Bool × Nat :=
  (digits.reverse.enum).foldl stepChecked (true, 0)

/-- A plain input glyph as the host buffer would hand it over: codepoint
and cluster set, all metrics and flags zero. -/
def inGlyph (codepoint cluster : Nat) : Glyph :=
  { codepoint := codepoint, cluster := cluster, flags := 0,
    x_advance := 0, y_advance := 0, x_offset := 0, y_offset := 0 }

/-- A concrete font collaborator used to instantiate theorems about
`shape`: an injective glyph mapping and a nontrivial advance metric. -/
def testFont : Font :=
  { get_glyph := fun codepoint _ => codepoint + 1000,
    get_glyph_h_advance := fun glyph => (glyph : Int) + 7 }

/-- A pass-through glyph with nonzero metadata in every field, to observe
which fields the resolver leaves untouched. -/
def gTest : Glyph :=
  { codepoint := 0x61, cluster := 5, flags := 3,
    x_advance := 11, y_advance := 12, x_offset := 13, y_offset := 14 }

/-- The buffer for the text `abc123def`. -/
def abcInput : List Glyph :=
  [inGlyph 0x61 0, inGlyph 0x62 1, inGlyph 0x63 2,
   inGlyph 0x31 3, inGlyph 0x32 4, inGlyph 0x33 5,
   inGlyph 0x64 6, inGlyph 0x65 7, inGlyph 0x66 8]

/-- The buffer for the text `x9`. -/
def x9Input : List Glyph :=
  [inGlyph 0x78 0, inGlyph 0x39 1]

/-- The digit run written `000000000000000000001` (twenty leading zeros):
it denotes the value 1 but drives the position index to 20. -/
def longZeroRun : List Nat :=
  List.replicate 20 0 ++ [1]

/-- The digit run of twenty nines: it denotes 10^20 - 1, which exceeds
the `u64` range, so the wrapping accumulator cannot return it. -/
def nines20 : List Nat :=
  List.replicate 20 9

/-! Helper lemmas. -/

/-- Closed form of the inner greedy loop: `romanLoop value symbol n acc`
leaves `n % value` and appends `symbol` exactly `n / value` times. -/
theorem romanLoop_eq (value : Nat) (symbol : List Char) (n : Nat) (acc : List Char) :
    romanLoop value symbol n acc =
      (if 0 < value then n % value else n,
       acc ++ (List.replicate (if 0 < value then n / value else 0) symbol).flatten) := by
  induction n using Nat.strong_induction_on generalizing acc with
  | _ n ih =>
    rw [romanLoop]
    by_cases h : 0 < value ∧ value ≤ n
    · rw [dif_pos h, ih (n - value) (by omega)]
      simp only [if_pos h.1]
      have hmod : (n - value) % value = n % value := by
        conv_rhs => rw [show n = n - value + value by omega]
        rw [Nat.add_mod_right]
      have hdiv : n / value = (n - value) / value + 1 := by
        rw [Nat.div_eq, if_pos h]
      rw [hmod, hdiv, List.replicate_succ, List.flatten_cons, List.append_assoc]
    · rw [dif_neg h]
      rcases Nat.eq_zero_or_pos value with hv | hv
      · simp [hv]
      · have hn : n < value := by omega
        rw [if_pos hv, if_pos hv, Nat.mod_eq_of_lt hn, Nat.div_eq_of_lt hn]
        simp

/-- The table fold computes the same pair as the fold of closed steps. -/
theorem roman_fold_eq (n : Nat) :
    roman_fold n = letters.foldl romanStepClosed (n, []) := by
  unfold roman_fold
  congr 1
  funext p e
  rw [romanLoop_eq]
  rfl

/-- After the whole table is processed the remaining value is 0: the last
entry has value 1, so the greedy scan always exhausts the number. -/
theorem roman_fold_fst (n : Nat) : (roman_fold n).1 = 0 := by
  rw [roman_fold_eq]
  have aux : ∀ (entries : List (Nat × List Char)) (p : Nat × List Char),
      (List.foldl romanStepClosed p entries).1 =
      entries.foldl (fun m e => if 0 < e.1 then m % e.1 else m) p.1 := by
    intro entries
    induction entries with
    | nil => intro p; rfl
    | cons e es ih => intro p; rw [List.foldl_cons, List.foldl_cons, ih]; rfl
  rw [aux]
  simp [letters, Nat.mod_one]

/-- The enumerated fold of `digits_to_number`, started at index `k`,
adds `10^k` times the little-endian value of the remaining digits. -/
theorem foldl_enumFrom_ofDigits (r : List Nat) :
    ∀ (k acc : Nat),
      (List.enumFrom k r).foldl (fun acc p => acc + p.2 * 10 ^ p.1) acc =
      acc + 10 ^ k * Nat.ofDigits 10 r := by
  induction r with
  | nil => intro k acc; simp [Nat.ofDigits_nil]
  | cons d r ih =>
      intro k acc
      rw [List.enumFrom_cons, List.foldl_cons, ih, Nat.ofDigits_cons]
      ring

/-- The wrapping fold of `digits_to_number`, started at index `k` from a
reduced accumulator, computes the exact enumerated sum modulo 2^64. -/
theorem foldl_enumFrom_ofDigits_u64 (r : List Nat) :
    ∀ (k acc : Nat), acc < U64 →
      (List.enumFrom k r).foldl
          (fun acc p => (acc + p.2 * (10 ^ p.1 % U64) % U64) % U64) acc =
        (acc + 10 ^ k * Nat.ofDigits 10 r) % U64 := by
  induction r with
  | nil =>
      intro k acc hacc
      simp [Nat.ofDigits_nil, Nat.mod_eq_of_lt hacc]
  | cons d r ih =>
      intro k acc hacc
      rw [List.enumFrom_cons, List.foldl_cons]
      have hU : 0 < U64 := by norm_num [U64]
      have hlt : (acc + d * (10 ^ k % U64) % U64) % U64 < U64 :=
        Nat.mod_lt _ hU
      rw [ih (k + 1) _ hlt]
      have hmod : (acc + d * (10 ^ k % U64) % U64) % U64 ≡
          acc + d * 10 ^ k [MOD U64] := by
        calc (acc + d * (10 ^ k % U64) % U64) % U64
            ≡ acc + d * (10 ^ k % U64) % U64 [MOD U64] := Nat.mod_modEq _ _
          _ ≡ acc + d * (10 ^ k % U64) [MOD U64] :=
              (Nat.mod_modEq _ _).add_left acc
          _ ≡ acc + d * 10 ^ k [MOD U64] :=
              (((Nat.mod_modEq _ _).mul_left d).add_left acc)
      have hcongr := hmod.add_right (10 ^ (k + 1) * Nat.ofDigits 10 r)
      rw [Nat.ModEq] at hcongr
      rw [hcongr, Nat.ofDigits_cons]
      congr 1
      ring

/-- Correctness of `digits_to_number`: it computes the base-10 value of
the run (most significant digit first) reduced modulo 2^64, the wrapping
`u64` result. -/
theorem digits_to_number_ofDigits (digits : List Nat) :
    digits_to_number digits = Nat.ofDigits 10 digits.reverse % U64 := by
  unfold digits_to_number
  rw [show digits.reverse.enum = List.enumFrom 0 digits.reverse from rfl,
    foldl_enumFrom_ofDigits_u64 digits.reverse 0 0 (by norm_num [U64])]
  simp

/-- The scanner loop of `shape`, followed by the trailing flush, produces
exactly the output described by the reference scanner, for any starting
run and output accumulator. -/
theorem scan_foldl_spec (glyphs : List Glyph) :
    ∀ (digits : List Nat) (out : List Glyph),
      (process_digits (glyphs.foldl scanStep (digits, out)).1
          (glyphs.foldl scanStep (digits, out)).2).2
        = out ++ scannerSpec digits glyphs := by
  induction glyphs with
  | nil =>
      intro digits out
      by_cases hd : digits = []
      · subst hd
        simp [process_digits, scannerSpec]
      · simp [process_digits, scannerSpec, hd, flush_glyphs]
  | cons g rest ih =>
      intro digits out
      rw [List.foldl_cons]
      cases hug : unicode_codepoint_to_number g.codepoint with
      | some n =>
          have hstep : scanStep (digits, out) g = (digits ++ [n], out) := by
            simp [scanStep, hug]
          rw [hstep, ih, scannerSpec, hug]
      | none =>
          by_cases hd : digits = []
          · subst hd
            have hstep : scanStep (([] : List Nat), out) g = ([], out ++ [g]) := by
              simp [scanStep, hug, process_digits]
            rw [hstep, ih, scannerSpec, hug]
            simp
          · have hstep : scanStep (digits, out) g =
                ([], (out ++ flush_glyphs digits) ++ [g]) := by
              simp [scanStep, hug, process_digits, hd, flush_glyphs]
            rw [hstep, ih, scannerSpec, hug]
            simp [hd]

/-- The assembled output of `shape` is exactly the reference scanner's
output on the whole buffer. -/
theorem assembled_eq_spec (glyphs : List Glyph) :
    assembled glyphs = scannerSpec [] glyphs := by
  unfold assembled scan
  rw [scan_foldl_spec]
  simp

/-- Closure of `okChars` under concatenation of well-formed pieces. -/
theorem okChars_append (a : List Char) :
    ∀ b, okChars a = true → okChars b = true → okChars (a ++ b) = true := by
  induction a with
  | nil => intro b _ hb; simpa
  | cons c a ih =>
      intro b ha hb
      cases a with
      | nil =>
          cases b with
          | nil => simpa using ha
          | cons d r =>
              have hc : (c != '_') = true := by simpa [okChars] using ha
              have : okChars (c :: d :: r) = ((c != '_' || d != '_') && okChars (d :: r)) := rfl
              simp only [List.cons_append, List.nil_append, this, hc]
              simpa [hb]
      | cons d rest =>
          have hsplit : ((c != '_' || d != '_') && okChars (d :: rest)) = true := ha
          have h1 : (c != '_' || d != '_') = true := by
            simpa using (Bool.and_elim_left hsplit)
          have h2 : okChars (d :: rest) = true := by
            simpa using (Bool.and_elim_right hsplit)
          have htail := ih b h2 hb
          have h728 : okChars (c :: d :: (rest ++ b)) =
              ((c != '_' || d != '_') && okChars (d :: (rest ++ b))) := rfl
          simp only [List.cons_append] at htail ⊢
          rw [h728, h1, htail]
          rfl

/-- Closure of `romanOk` under concatenation. -/
theorem romanOk_append (a b : List Char)
    (ha : romanOk a = true) (hb : romanOk b = true) :
    romanOk (a ++ b) = true := by
  unfold romanOk at ha hb ⊢
  rw [Bool.and_eq_true] at ha hb
  rw [Bool.and_eq_true, List.all_append]
  exact ⟨okChars_append a b ha.1 hb.1, by simp [ha.2, hb.2]⟩

/-- Well-formedness of a flattened repetition of a well-formed symbol. -/
theorem romanOk_flatten_replicate (s : List Char) (hs : romanOk s = true) :
    ∀ k, romanOk ((List.replicate k s).flatten) = true := by
  intro k
  induction k with
  | zero => rfl
  | succ k ih =>
      rw [List.replicate_succ, List.flatten_cons]
      exact romanOk_append s _ hs ih

/-- Every symbol of the encoding table is a well-formed Roman fragment. -/
theorem letters_romanOk : ∀ e ∈ letters, romanOk e.2 = true := by
  decide

/-- The Roman string produced for any number is well-formed: overline
escapes always precede a base letter, and no character is itself the
overline marker codepoint. -/
theorem romanOk_number_to_roman_numeral (n : Nat) :
    romanOk (number_to_roman_numeral n) = true := by
  rw [number_to_roman_numeral, roman_fold_eq]
  have aux : ∀ (entries : List (Nat × List Char)) (p : Nat × List Char),
      (∀ e ∈ entries, romanOk e.2 = true) → romanOk p.2 = true →
      romanOk (entries.foldl romanStepClosed p).2 = true := by
    intro entries
    induction entries with
    | nil => intro p _ hp; exact hp
    | cons e es ih =>
        intro p hes hp
        rw [List.foldl_cons]
        refine ih _ (fun x hx => hes x (List.mem_cons_of_mem e hx)) ?_
        exact romanOk_append _ _ hp
          (romanOk_flatten_replicate e.2 (hes e (List.mem_cons_self e es)) _)
  exact aux letters (n, []) letters_romanOk rfl

/-- Element-wise description of `string_to_glyphs`. -/
theorem string_to_glyphs_get (s : List Char) (i : Nat) (hi : i < s.length)
    (hg : i < (string_to_glyphs s).length) :
    (string_to_glyphs s).get ⟨i, hg⟩ =
      { codepoint := if s.get ⟨i, hi⟩ = '_' then 0x305 else (s.get ⟨i, hi⟩).toNat
        flags := 0
        x_advance := 0
        y_advance := 0
        cluster := if s.get ⟨i, hi⟩ = '_' then i + 1 else i
        x_offset := 0
        y_offset := 0 } := by
  simp [string_to_glyphs, List.get_eq_getElem, List.getElem_map, List.getElem_enum]

/-- The length of `string_to_glyphs` equals the string length. -/
theorem string_to_glyphs_length (s : List Char) :
    (string_to_glyphs s).length = s.length := by
  simp [string_to_glyphs, List.enum_length]

/-- In an `okChars` list, the character after any `'_'` exists and is not
itself `'_'`. -/
theorem okChars_succ : ∀ (l : List Char), okChars l = true →
    ∀ i, ∀ hi : i < l.length, l.get ⟨i, hi⟩ = '_' →
      ∃ h2 : i + 1 < l.length, l.get ⟨i + 1, h2⟩ ≠ '_' := by
  intro l
  induction l with
  | nil => intro _ i hi; simp at hi
  | cons c l ih =>
      intro hok i hi hc
      cases l with
      | nil =>
          have hcne : (c != '_') = true := hok
          cases i with
          | zero =>
              have hcd : c = '_' := hc
              simp [hcd] at hcne
          | succ j => simp at hi
      | cons d r =>
          have h1 : (c != '_' || d != '_') = true := by
            simpa using (Bool.and_elim_left hok)
          have h2 : okChars (d :: r) = true := by
            simpa using (Bool.and_elim_right hok)
          cases i with
          | zero =>
              have hcd : c = '_' := hc
              have hd : d ≠ '_' := by
                rcases Bool.or_eq_true_iff.mp h1 with h | h
                · exact absurd hcd (by simpa using h)
                · simpa using h
              exact ⟨by simp, hd⟩
          | succ j =>
              have hj : j < (d :: r).length := by
                simpa using Nat.lt_of_succ_lt_succ hi
              have hcj : (d :: r).get ⟨j, hj⟩ = '_' := hc
              obtain ⟨hnext, hne⟩ := ih h2 j hj hcj
              exact ⟨Nat.succ_lt_succ hnext, hne⟩

/-- No character of an encoded Roman string has scalar value 0x305. -/
theorem roman_chars_ne_marker (n : Nat) :
    ∀ c ∈ number_to_roman_numeral n, c.toNat ≠ 0x305 := by
  intro c hc
  have h := romanOk_number_to_roman_numeral n
  unfold romanOk at h
  rw [Bool.and_eq_true, List.all_eq_true] at h
  simpa using h.2 c hc

/-- The `okChars` half of well-formedness of encoded Roman strings. -/
theorem okChars_number_to_roman_numeral (n : Nat) :
    okChars (number_to_roman_numeral n) = true := by
  have h := romanOk_number_to_roman_numeral n
  unfold romanOk at h
  exact (Bool.and_eq_true _ _ |>.mp h).1

/-- A scanner pass over digit-free input copies every glyph through. -/
theorem scan_no_digits : ∀ (glyphs out : List Glyph),
    (∀ g ∈ glyphs, unicode_codepoint_to_number g.codepoint = none) →
    glyphs.foldl scanStep ([], out) = ([], out ++ glyphs) := by
  intro glyphs
  induction glyphs with
  | nil => intro out _; simp
  | cons g rest ih =>
      intro out hall
      rw [List.foldl_cons]
      have hg := hall g (List.mem_cons_self g rest)
      have hstep : scanStep (([] : List Nat), out) g = ([], out ++ [g]) := by
        simp [scanStep, hg, process_digits]
      rw [hstep, ih (out ++ [g]) (fun x hx => hall x (List.mem_cons_of_mem _ hx))]
      simp

/-- On digit-free input the assembled sequence is the input itself. -/
theorem assembled_no_digits (glyphs : List Glyph)
    (h : ∀ g ∈ glyphs, unicode_codepoint_to_number g.codepoint = none) :
    assembled glyphs = glyphs := by
  unfold assembled scan
  rw [scan_no_digits glyphs [] h]
  simp [process_digits]

/-- The overflow-checked fold of `digits_to_number`: when the final value
fits in a `u64` and positions stay at most 19 (run length at most 20),
every step passes its overflow checks and the accumulator is exact. -/
theorem stepChecked_fold (r : List Nat) :
    ∀ (k acc : Nat), acc + 10 ^ k * Nat.ofDigits 10 r < U64 → k + r.length ≤ 20 →
      (List.enumFrom k r).foldl stepChecked (true, acc) =
        (true, acc + 10 ^ k * Nat.ofDigits 10 r) := by
  induction r with
  | nil => intro k acc _ _; simp [Nat.ofDigits_nil]
  | cons d r ih =>
      intro k acc hlt hlen
      rw [List.enumFrom_cons, List.foldl_cons]
      have hofd : Nat.ofDigits 10 (d :: r) = d + 10 * Nat.ofDigits 10 r :=
        Nat.ofDigits_cons
      have hterm_le : d * 10 ^ k ≤ 10 ^ k * Nat.ofDigits 10 (d :: r) := by
        rw [hofd, Nat.mul_comm]
        exact Nat.mul_le_mul (le_refl (10 ^ k)) (Nat.le_add_right d (10 * Nat.ofDigits 10 r))
      have hpow : 10 ^ k < U64 := by
        have hk : k ≤ 19 := by
          have := hlen
          simp only [List.length_cons] at this
          omega
        calc 10 ^ k ≤ 10 ^ 19 := Nat.pow_le_pow_right (by norm_num) hk
          _ < U64 := by norm_num [U64]
      have hterm : d * 10 ^ k < U64 :=
        lt_of_le_of_lt (le_trans hterm_le (Nat.le_add_left _ _)) hlt
      have hacc : acc + d * 10 ^ k < U64 :=
        lt_of_le_of_lt (Nat.add_le_add_left hterm_le _) hlt
      have hstep : stepChecked (true, acc) (k, d) = (true, acc + d * 10 ^ k) := by
        simp [stepChecked, hpow, hterm, hacc]
      have hsum : acc + d * 10 ^ k + 10 ^ (k + 1) * Nat.ofDigits 10 r =
          acc + 10 ^ k * Nat.ofDigits 10 (d :: r) := by
        rw [hofd]; ring
      have hlt2 : acc + d * 10 ^ k + 10 ^ (k + 1) * Nat.ofDigits 10 r < U64 := by
        rw [hsum]; exact hlt
      have hlen2 : k + 1 + r.length ≤ 20 := by
        simp only [List.length_cons] at hlen
        omega
      rw [hstep, ih (k + 1) (acc + d * 10 ^ k) hlt2 hlen2, hsum]

/-- Concrete evaluation: `encode(123) = "CXXIII"`. -/
theorem roman_123 : number_to_roman_numeral 123 = ['C', 'X', 'X', 'I', 'I', 'I'] := by
  rw [number_to_roman_numeral, roman_fold_eq]; decide

/-- Concrete evaluation: `encode(9) = "IX"`. -/
theorem roman_9 : number_to_roman_numeral 9 = ['I', 'X'] := by
  rw [number_to_roman_numeral, roman_fold_eq]; decide

/-- Concrete evaluation: `encode(12321) = "_XMMCCCXXI"`. -/
theorem roman_12321 :
    number_to_roman_numeral 12321 = "_XMMCCCXXI".data := by
  rw [number_to_roman_numeral, roman_fold_eq]; decide

/-- Flushing the run 1,2,3 produces the glyphs of `CXXIII`. -/
theorem flush_123 :
    flush_glyphs [1, 2, 3] = string_to_glyphs ['C', 'X', 'X', 'I', 'I', 'I'] := by
  unfold flush_glyphs
  rw [show digits_to_number [1, 2, 3] = 123 from by decide, roman_123]

/-- Flushing the run 9 produces the glyphs of `IX`. -/
theorem flush_9 : flush_glyphs [9] = string_to_glyphs ['I', 'X'] := by
  unfold flush_glyphs
  rw [show digits_to_number [9] = 9 from by decide, roman_9]

/-! Claims. -/

/-- C1: the Roman encoder produces exactly the listed outputs:
`encode(1) = "I"`, `encode(2) = "II"`, `encode(9) = "IX"`,
`encode(11) = "XI"`, `encode(121) = "CXXI"`, `encode(2321) = "MMCCCXXI"`
and `encode(12321) = "_XMMCCCXXI"` (the `'_'` escape marking an overline
on the next letter). -/
theorem roman_encoder_exact_outputs :
    number_to_roman_numeral 1 = "I".data ∧
    number_to_roman_numeral 2 = "II".data ∧
    number_to_roman_numeral 9 = "IX".data ∧
    number_to_roman_numeral 11 = "XI".data ∧
    number_to_roman_numeral 121 = "CXXI".data ∧
    number_to_roman_numeral 2321 = "MMCCCXXI".data ∧
    number_to_roman_numeral 12321 = "_XMMCCCXXI".data := by
  refine ⟨?_, ?_, ?_, ?_, ?_, ?_, ?_⟩ <;>
    (rw [number_to_roman_numeral, roman_fold_eq]; decide)

/-- C2 counterexample: the run of twenty nines (each digit between 0 and
9) denotes 10^20 - 1, but the `u64` accumulator wraps, so
`digits_to_number` returns that value reduced modulo 2^64 instead of the
denoted integer: the universal claim fails as stated. -/
theorem digits_wrap_counterexample :
    (∀ d ∈ nines20, d ≤ 9) ∧
    denote nines20 = 99999999999999999999 ∧
    digits_to_number nines20 = 7766279631452241919 ∧
    digits_to_number nines20 ≠ denote nines20 := by
  refine ⟨by decide, by decide, by decide, by decide⟩

/-- C2 (amended): for every sequence of digits between 0 and 9 whose
denoted value is representable in the 64-bit unsigned accumulator,
`digits_to_number` returns the base-10 integer the sequence denotes most
significant digit first; in particular on `[1]`, `[2]`, `[1,1,1]`,
`[1,2,3]`, `[3,2,1]`, `[3,2,1,4,5,6]` and `[]` it returns 1, 2, 111,
123, 321, 321456 and 0. -/
theorem digits_to_number_denotes_representable :
    (∀ digits : List Nat, (∀ d ∈ digits, d ≤ 9) → denote digits < U64 →
      digits_to_number digits = denote digits) ∧
    digits_to_number [1] = 1 ∧
    digits_to_number [2] = 2 ∧
    digits_to_number [1, 1, 1] = 111 ∧
    digits_to_number [1, 2, 3] = 123 ∧
    digits_to_number [3, 2, 1] = 321 ∧
    digits_to_number [3, 2, 1, 4, 5, 6] = 321456 ∧
    digits_to_number [] = 0 := by
  refine ⟨?_, by decide, by decide, by decide, by decide, by decide, by decide, by decide⟩
  intro digits _ hval
  rw [digits_to_number_ofDigits]
  exact Nat.mod_eq_of_lt hval

/-- Witness instantiating the amended C2 on the run `[1,2,3]`. -/
theorem digits_to_number_denotes_representable_witness :
    digits_to_number [1, 2, 3] = denote [1, 2, 3] :=
  digits_to_number_denotes_representable.1 [1, 2, 3] (by decide) (by decide)

/-- C6: the Roman encoder is total: for every input the greedy table scan
reaches remaining value 0; input 0 yields the empty string; values above
the largest table entry reuse it, so `encode(2000000) = "_M_M"`. -/
theorem roman_encoder_total :
    (∀ n : Nat, (roman_fold n).1 = 0) ∧
    number_to_roman_numeral 0 = [] ∧
    number_to_roman_numeral 2000000 = "_M_M".data := by
  refine ⟨roman_fold_fst, ?_, ?_⟩ <;>
    (rw [number_to_roman_numeral, roman_fold_eq]; decide)

/-- C9: the entry point `shape` returns the integer 1 for every font and
every input buffer. -/
theorem shape_returns_one :
    ∀ (font : Font) (buffer : List Glyph), (shape font buffer).2 = 1 :=
  fun _ _ => rfl

/-- C3: `string_to_glyphs` emits one glyph per character in order; a
non-`'_'` character at index `i` yields its scalar value with cluster `i`,
the `'_'` escape yields codepoint 0x305 with cluster `i + 1`, and every
emitted glyph has zero flags, advances and offsets. -/
theorem string_to_glyphs_characterization :
    (∀ s : List Char, (string_to_glyphs s).length = s.length) ∧
    (∀ (s : List Char) (i : Nat), ∀ hi : i < s.length,
      ∀ hg : i < (string_to_glyphs s).length,
      (string_to_glyphs s).get ⟨i, hg⟩ =
        { codepoint := if s.get ⟨i, hi⟩ = '_' then 0x305 else (s.get ⟨i, hi⟩).toNat
          flags := 0
          x_advance := 0
          y_advance := 0
          cluster := if s.get ⟨i, hi⟩ = '_' then i + 1 else i
          x_offset := 0
          y_offset := 0 }) :=
  ⟨string_to_glyphs_length, string_to_glyphs_get⟩

/-- Witness instantiating C3 on the string `_X` at index 0. -/
theorem string_to_glyphs_characterization_witness :
    (string_to_glyphs ['_', 'X']).get ⟨0, by decide⟩ =
      { codepoint := 0x305, flags := 0, x_advance := 0, y_advance := 0,
        cluster := 1, x_offset := 0, y_offset := 0 } := by
  rw [string_to_glyphs_characterization.2 ['_', 'X'] 0 (by decide) (by decide)]
  decide

/-- C4: in the finishing pass, a glyph whose pre-resolution codepoint is
0x305 gets `x_advance = 0` and `y_offset = 130`; every other glyph gets
the font's horizontal advance for its resolved glyph index and
`y_offset = 0`. -/
theorem resolver_pass_overline_metrics :
    ∀ (font : Font) (buffer : List Glyph) (i : Nat),
      ∀ h : i < (assembled buffer).length,
      ∀ h2 : i < (shape font buffer).1.length,
      (((assembled buffer).get ⟨i, h⟩).codepoint = 0x305 →
        ((shape font buffer).1.get ⟨i, h2⟩).x_advance = 0 ∧
        ((shape font buffer).1.get ⟨i, h2⟩).y_offset = 130) ∧
      (((assembled buffer).get ⟨i, h⟩).codepoint ≠ 0x305 →
        ((shape font buffer).1.get ⟨i, h2⟩).x_advance =
          font.get_glyph_h_advance
            (font.get_glyph ((assembled buffer).get ⟨i, h⟩).codepoint 0) ∧
        ((shape font buffer).1.get ⟨i, h2⟩).y_offset = 0) := by
  intro font buffer i h h2
  have hmap : (shape font buffer).1.get ⟨i, h2⟩ =
      fix_glyph font ((assembled buffer).get ⟨i, h⟩) := by
    simp [shape, List.get_eq_getElem, List.getElem_map]
  constructor
  · intro hc
    rw [hmap]
    generalize (assembled buffer).get ⟨i, h⟩ = g at hc ⊢
    simp [fix_glyph, hc]
  · intro hc
    rw [hmap]
    generalize (assembled buffer).get ⟨i, h⟩ = g at hc ⊢
    simp [fix_glyph, hc]

/-- Witness instantiating C4 on a one-glyph digit-free buffer and the
concrete test font. -/
theorem resolver_pass_overline_metrics_witness :
    ((assembled [inGlyph 0x61 0]).get ⟨0, by decide⟩).codepoint ≠ 0x305 ∧
    ((shape testFont [inGlyph 0x61 0]).1.get ⟨0, by decide⟩).x_advance =
      testFont.get_glyph_h_advance
        (testFont.get_glyph
          ((assembled [inGlyph 0x61 0]).get ⟨0, by decide⟩).codepoint 0) ∧
    ((shape testFont [inGlyph 0x61 0]).1.get ⟨0, by decide⟩).y_offset = 0 := by
  have happ :=
    (resolver_pass_overline_metrics testFont [inGlyph 0x61 0] 0
      (by decide) (by decide)).2 (by decide)
  exact ⟨by decide, happ.1, happ.2⟩

/-- C8: the finishing pass modifies only `codepoint`, `x_advance` and
`y_offset`: `y_advance`, `flags`, `cluster` and `x_offset` are unchanged
for every glyph; and on a buffer with no digit glyphs every glyph passes
through with its original `cluster` and `flags`. -/
theorem resolver_frame :
    (∀ (font : Font) (g : Glyph),
      (fix_glyph font g).y_advance = g.y_advance ∧
      (fix_glyph font g).flags = g.flags ∧
      (fix_glyph font g).cluster = g.cluster ∧
      (fix_glyph font g).x_offset = g.x_offset) ∧
    (∀ (font : Font) (buffer : List Glyph),
      (∀ g ∈ buffer, unicode_codepoint_to_number g.codepoint = none) →
      assembled buffer = buffer ∧
      ∀ i, ∀ h : i < buffer.length, ∀ h2 : i < (shape font buffer).1.length,
        ((shape font buffer).1.get ⟨i, h2⟩).cluster = (buffer.get ⟨i, h⟩).cluster ∧
        ((shape font buffer).1.get ⟨i, h2⟩).flags = (buffer.get ⟨i, h⟩).flags) := by
  constructor
  · intro font g
    exact ⟨rfl, rfl, rfl, rfl⟩
  · intro font buffer hnd
    have ha := assembled_no_digits buffer hnd
    refine ⟨ha, ?_⟩
    intro i h h2
    have hmap : (shape font buffer).1.get ⟨i, h2⟩ =
        fix_glyph font (buffer.get ⟨i, h⟩) := by
      simp [shape, ha, List.get_eq_getElem, List.getElem_map]
    rw [hmap]
    exact ⟨rfl, rfl⟩

/-- Witness instantiating C8 on a digit-free one-glyph buffer whose
metadata fields are all nonzero. -/
theorem resolver_frame_witness :
    (fix_glyph testFont gTest).y_advance = gTest.y_advance ∧
    assembled [gTest] = [gTest] ∧
    ((shape testFont [gTest]).1.get ⟨0, by decide⟩).cluster =
      ([gTest].get ⟨0, by decide⟩).cluster ∧
    ((shape testFont [gTest]).1.get ⟨0, by decide⟩).flags =
      ([gTest].get ⟨0, by decide⟩).flags := by
  obtain ⟨ha, hfr⟩ := resolver_frame.2 testFont [gTest] (by decide)
  exact ⟨(resolver_frame.1 testFont gTest).1, ha,
    (hfr 0 (by decide) (by decide)).1, (hfr 0 (by decide) (by decide)).2⟩

/-- C5: the scanner walks the input once, never copies digit glyphs,
flushes a pending run before appending a non-digit glyph, and flushes a
trailing run at end of input; concretely, `abc123def` yields a, b, c, the
glyphs for `CXXIII`, then d, e, f, and `x9` yields x then the glyphs for
`IX`. -/
theorem scanner_behaviour :
    (∀ buffer : List Glyph, assembled buffer = scannerSpec [] buffer) ∧
    assembled abcInput =
      [inGlyph 0x61 0, inGlyph 0x62 1, inGlyph 0x63 2] ++
        string_to_glyphs ['C', 'X', 'X', 'I', 'I', 'I'] ++
        [inGlyph 0x64 6, inGlyph 0x65 7, inGlyph 0x66 8] ∧
    assembled x9Input =
      [inGlyph 0x78 0] ++ string_to_glyphs ['I', 'X'] := by
  refine ⟨assembled_eq_spec, ?_, ?_⟩
  · rw [assembled_eq_spec]
    simp [abcInput, scannerSpec, inGlyph, unicode_codepoint_to_number, flush_123]
  · rw [assembled_eq_spec]
    simp [x9Input, scannerSpec, inGlyph, unicode_codepoint_to_number, flush_9]

/-- C7 counterexample: the digit run `00000000000000000001` extended to
twenty leading zeros and a final 1 (21 digits) denotes 1, which fits in a
`u64`, yet the power computation `10^20` performed for its leading zero
overflows `u64`, so not every arithmetic step is overflow-free. -/
theorem digits_overflow_counterexample :
    (∀ d ∈ longZeroRun, d ≤ 9) ∧ denote longZeroRun < U64 ∧
    (digits_to_number_checked longZeroRun).1 = false := by
  refine ⟨by decide, by decide, by decide⟩

/-- C7 (amended): for every digit run of length at most 20 (so the power
`10^position` stays below 2^64) whose denoted value fits in a `u64`, no
arithmetic step of `digits_to_number` overflows and the accumulator is
exactly the denoted integer. -/
theorem digits_to_number_checked_exact :
    ∀ digits : List Nat, (∀ d ∈ digits, d ≤ 9) → digits.length ≤ 20 →
      denote digits < U64 →
      digits_to_number_checked digits = (true, denote digits) := by
  intro digits _ hlen hval
  unfold digits_to_number_checked
  rw [show digits.reverse.enum = List.enumFrom 0 digits.reverse from rfl]
  have h1 : (0:Nat) + 10 ^ 0 * Nat.ofDigits 10 digits.reverse < U64 := by
    simpa [denote] using hval
  have h2 : 0 + digits.reverse.length ≤ 20 := by simpa using hlen
  rw [stepChecked_fold digits.reverse 0 0 h1 h2]
  simp [denote]

/-- Witness instantiating the amended C7 on the run `[1,2,3]`. -/
theorem digits_to_number_checked_exact_witness :
    digits_to_number_checked [1, 2, 3] = (true, denote [1, 2, 3]) :=
  digits_to_number_checked_exact [1, 2, 3] (by decide) (by decide) (by decide)

/-- C10: in every encoded Roman string `'_'` is never last and is always
followed by a non-`'_'` letter; consequently every overline glyph emitted
by `string_to_glyphs` on an encoded string is immediately followed by a
base-letter glyph with the same cluster. -/
theorem overline_followed_by_base :
    (∀ (n i : Nat), ∀ hi : i < (number_to_roman_numeral n).length,
      (number_to_roman_numeral n).get ⟨i, hi⟩ = '_' →
      i + 1 < (number_to_roman_numeral n).length ∧
      (number_to_roman_numeral n).getD (i + 1) '_' ≠ '_') ∧
    (∀ (n i : Nat),
      ∀ hg : i < (string_to_glyphs (number_to_roman_numeral n)).length,
      ((string_to_glyphs (number_to_roman_numeral n)).get ⟨i, hg⟩).codepoint = 0x305 →
      i + 1 < (string_to_glyphs (number_to_roman_numeral n)).length ∧
      ((string_to_glyphs (number_to_roman_numeral n)).getD (i + 1) (inGlyph 0 0)).codepoint ≠ 0x305 ∧
      ((string_to_glyphs (number_to_roman_numeral n)).getD (i + 1) (inGlyph 0 0)).cluster =
        ((string_to_glyphs (number_to_roman_numeral n)).get ⟨i, hg⟩).cluster) := by
  constructor
  · intro n i hi hc
    obtain ⟨h2, hne⟩ := okChars_succ _ (okChars_number_to_roman_numeral n) i hi hc
    refine ⟨h2, ?_⟩
    rw [List.getD_eq_getElem _ _ h2]
    simpa [List.get_eq_getElem] using hne
  · intro n i hg hcp
    have hlen : (string_to_glyphs (number_to_roman_numeral n)).length =
        (number_to_roman_numeral n).length := string_to_glyphs_length _
    have hi : i < (number_to_roman_numeral n).length := hlen ▸ hg
    have hgi := string_to_glyphs_get (number_to_roman_numeral n) i hi hg
    have hchar : (number_to_roman_numeral n).get ⟨i, hi⟩ = '_' := by
      by_contra hnec
      rw [hgi] at hcp
      simp only [if_neg hnec] at hcp
      exact roman_chars_ne_marker n _ (List.get_mem _ _ _) hcp
    obtain ⟨h2s, hne⟩ :=
      okChars_succ _ (okChars_number_to_roman_numeral n) i hi hchar
    have h2g : i + 1 < (string_to_glyphs (number_to_roman_numeral n)).length := by
      rw [hlen]; exact h2s
    have hconv : (string_to_glyphs (number_to_roman_numeral n)).getD (i + 1) (inGlyph 0 0) =
        (string_to_glyphs (number_to_roman_numeral n)).get ⟨i + 1, h2g⟩ := by
      rw [List.getD_eq_getElem _ _ h2g, List.get_eq_getElem]
    have hgi2 := string_to_glyphs_get (number_to_roman_numeral n) (i + 1) h2s h2g
    refine ⟨h2g, ?_, ?_⟩
    · rw [hconv, hgi2]
      simp only [if_neg hne]
      exact roman_chars_ne_marker n _ (List.get_mem _ _ _)
    · rw [hconv, hgi2, hgi]
      simp only [List.get_eq_getElem] at hchar hne
      simp [hchar, hne]

/-- Witness instantiating C10 on `encode(12321) = "_XMMCCCXXI"` at the
leading overline escape. -/
theorem overline_followed_by_base_witness :
    (0 + 1 < (number_to_roman_numeral 12321).length ∧
      (number_to_roman_numeral 12321).getD (0 + 1) '_' ≠ '_') ∧
    (0 + 1 < (string_to_glyphs (number_to_roman_numeral 12321)).length ∧
      ((string_to_glyphs (number_to_roman_numeral 12321)).getD (0 + 1)
          (inGlyph 0 0)).codepoint ≠ 0x305 ∧
      ((string_to_glyphs (number_to_roman_numeral 12321)).getD (0 + 1)
          (inGlyph 0 0)).cluster =
        ((string_to_glyphs (number_to_roman_numeral 12321)).get
          ⟨0, by rw [string_to_glyphs_length, roman_12321]; decide⟩).cluster) := by
  have h0 : 0 < (number_to_roman_numeral 12321).length := by
    rw [roman_12321]; decide
  have hc : (number_to_roman_numeral 12321).get ⟨0, h0⟩ = '_' := by
    simp [List.get_eq_getElem, roman_12321]
  have hg0 : 0 < (string_to_glyphs (number_to_roman_numeral 12321)).length := by
    rw [string_to_glyphs_length, roman_12321]; decide
  have hcp : ((string_to_glyphs (number_to_roman_numeral 12321)).get
      ⟨0, hg0⟩).codepoint = 0x305 := by
    rw [string_to_glyphs_get _ 0 h0 hg0]
    have hc2 := hc
    simp only [List.get_eq_getElem] at hc2
    simp [hc2]
  exact ⟨overline_followed_by_base.1 12321 0 h0 hc,
    overline_followed_by_base.2 12321 0 hg0 hcp⟩
